import Mathlib

/-!
Verification of the batch text rewriter `fix-uri-imports.py`.

The program reads each file, applies three transformation rules to its
content, and writes the file back only when the content changed:

1. if the content contains the URI import literal (checked without a
   trailing semicolon) and not the path import literal, every occurrence
   of the URI import statement (with semicolon) is replaced by itself
   followed by a newline and the path import statement;
2. every occurrence of `path.join(URI.parse(<no close paren>),` (or
   `URI.file`) gets `.fsPath` appended to the first argument;
3. every occurrence of `URI.joinPath(<no close paren>)` is replaced by
   the placeholder `URI.file("FIXME")`.

Content is modelled as `List Char`.  Regex substitution is modelled by a
left-to-right scanner `scan` that at each position tries a matcher; on a
match it emits the replacement and resumes after the consumed region
(non-overlapping, leftmost, exactly the semantics of `re.sub` for these
backtracking-free patterns), otherwise it copies one character.
-/

namespace FixUriImports

abbrev LC := List Char

/-- The apostrophe character, by code point. -/
def apos : Char := Char.ofNat 39

/-- `import { URI } from 'vscode-uri'` — the rule 1 presence check. -/
def uriImportCheck : LC :=
  "import \x7b URI \x7d from ".data ++ apos :: "vscode-uri".data ++ [apos]

/-- `import { URI } from 'vscode-uri';` — the rule 1 replacement target. -/
def uriImportSemi : LC := uriImportCheck ++ [';']

/-- `import * as path from 'path'` — the rule 1 absence check. -/
def pathImportCheck : LC :=
  "import * as path from ".data ++ apos :: "path".data ++ [apos]

/-- The rule 1 replacement: URI import, newline, path import. -/
def uriImportInsert : LC := uriImportSemi ++ '\n' :: pathImportCheck ++ [';']

/-- Boolean prefix test on character lists. -/
def isPre : LC → LC → Bool
  | [], _ => true
  | _ :: _, [] => false
  | a :: p, b :: s => a == b && isPre p s

/-- Python substring containment (`pat in s`). -/
def containsSub (pat : LC) : LC → Bool
  | [] => isPre pat []
  | c :: t => isPre pat (c :: t) || containsSub pat t

/-- Characters allowed inside `[^)]+`. -/
def nonParen (c : Char) : Bool := c != ')'

/-- Scanner worker: while the first argument is positive it silently skips
characters already consumed by a match; at `0` it tries the matcher `m` on
the current suffix, emitting either the replacement or the head character. -/
def scanGo (m : LC → Option (LC × LC)) : Nat → LC → LC
  | _, [] => []
  | k + 1, _ :: t => scanGo m k t
  | 0, c :: t =>
    match m (c :: t) with
    | some pr => pr.1 ++ scanGo m (t.length - pr.2.length) t
    | none => c :: scanGo m 0 t

/-- Left-to-right, non-overlapping substitution driven by matcher `m`. -/
def scan (m : LC → Option (LC × LC)) (s : LC) : LC := scanGo m 0 s

/-- Does `m` match at some position of `s`? -/
def hasMatch (m : LC → Option (LC × LC)) : LC → Bool
  | [] => (m []).isSome
  | c :: t => (m (c :: t)).isSome || hasMatch m t

/-- Matcher for Python `str.replace`: a literal pattern, replaced everywhere. -/
def replM (pat rep : LC) (s : LC) : Option (LC × LC) :=
  if pat ≠ [] ∧ isPre pat s = true then some (rep, s.drop pat.length) else none

/-- Python `content.replace(pat, rep)`. -/
def replaceAll (pat rep : LC) (s : LC) : LC := scan (replM pat rep) s

/-- `URI.joinPath(` — the opening of the rule 3 pattern. -/
def joinPathTrig : LC := "URI.joinPath(".data

/-- `URI.file("FIXME")` — the rule 3 replacement. -/
def fixmeRepl : LC := "URI.file(\"FIXME\")".data

/-- Matcher for rule 3: `URI.joinPath(` then `[^)]+` then `)`. -/
def match3 (s : LC) : Option (LC × LC) :=
  if isPre joinPathTrig s = true then
    if (s.drop joinPathTrig.length).takeWhile nonParen ≠ [] ∧
       (s.drop joinPathTrig.length).dropWhile nonParen ≠ [] then
      some (fixmeRepl, ((s.drop joinPathTrig.length).dropWhile nonParen).drop 1)
    else none
  else none

/-- `path.join(URI.parse(` — opening of the first rule 2 alternative. -/
def pjParseTrig : LC := "path.join(URI.parse(".data

/-- `path.join(URI.file(` — opening of the second rule 2 alternative. -/
def pjFileTrig : LC := "path.join(URI.file(".data

/-- `).fsPath,` — tail of the rule 2 replacement. -/
def fsPathClose : LC := ").fsPath,".data

/-- `),` — required right after the rule 2 capture group. -/
def closeComma : LC := [')', ',']

/-- One alternative of rule 2: the trigger, then `[^)]+`, then `),`;
the replacement keeps the group and appends `.fsPath` before the comma. -/
def matchArm (trig : LC) (s : LC) : Option (LC × LC) :=
  if isPre trig s = true then
    if (s.drop trig.length).takeWhile nonParen ≠ [] ∧
       isPre closeComma ((s.drop trig.length).dropWhile nonParen) = true then
      some (trig ++ (s.drop trig.length).takeWhile nonParen ++ fsPathClose,
            ((s.drop trig.length).dropWhile nonParen).drop 2)
    else none
  else none

/-- Matcher for rule 2: the `parse` alternative, then the `file` one. -/
def match2 (s : LC) : Option (LC × LC) :=
  match matchArm pjParseTrig s with
  | some pr => some pr
  | none => matchArm pjFileTrig s

/-- Rule 1: conditional literal insertion of the path import. -/
def rule1 (c : LC) : LC :=
  if containsSub uriImportCheck c && !containsSub pathImportCheck c then
    replaceAll uriImportSemi uriImportInsert c
  else c

/-- Rule 2 substitution pass. -/
def sub2 (c : LC) : LC := scan match2 c

/-- Rule 3 substitution pass. -/
def sub3 (c : LC) : LC := scan match3 c

/-- The full content transformation of `fix_file`. -/
def fixContent (c : LC) : LC := sub3 (sub2 (rule1 c))

/-- `fix_file` on one file content: final on-disk content, and whether the
file was opened for writing (and reported as fixed). -/
def fix_file (c : LC) : LC × Bool :=
  if fixContent c ≠ c then (fixContent c, true) else (c, false)

/-- Number of positions at which `pat` occurs in `s`. -/
def countPos (pat s : LC) : Nat :=
  ((List.range (s.length + 1)).filter fun i => isPre pat (s.drop i)).length

/-- One file of a run: its path, its content, and whether reading it or
writing it back would raise an I/O error. -/
structure FileSpec where
  path : LC
  content : LC
  readFails : Bool
  writeFails : Bool

/-- One `fix_file` call under the I/O failure model: `none` means an
uncaught exception (read failure, or write failure on a changed file);
otherwise the final content and whether `Fixed` was printed. -/
def processOne (f : FileSpec) : Option (LC × Bool) :=
  if f.readFails then none
  else if fixContent f.content ≠ f.content then
    if f.writeFails then none else some (fixContent f.content, true)
  else some (f.content, false)

/-- The untouched on-disk entry of a file. -/
def origEntry (f : FileSpec) : LC × LC := (f.path, f.content)

/-- The driver loop: final on-disk contents, printed `Fixed` lines, and
whether the loop ran to completion. -/
def runFiles : List FileSpec → List (LC × LC) × List LC × Bool
  | [] => ([], [], true)
  | f :: rest =>
    match processOne f with
    | none => (origEntry f :: rest.map origEntry, [], false)
    | some pr =>
      ((f.path, pr.1) :: (runFiles rest).1,
       (if pr.2 then ["Fixed ".data ++ f.path] else []) ++ (runFiles rest).2.1,
       (runFiles rest).2.2)

/-- Everything the run prints: the `Fixed` lines, then `Done!` if the loop
completed. -/
def consoleOutput (fs : List FileSpec) : List LC :=
  (runFiles fs).2.1 ++ if (runFiles fs).2.2 then ["Done!".data] else []

/-- A file on which `fix_file` raises no error. -/
def succeeds (f : FileSpec) : Bool :=
  !f.readFails && (fixContent f.content == f.content || !f.writeFails)

/-! ## Concrete inputs used by counterexamples and end-to-end checks -/

/-- A file with a rule 2 trigger but no URI import. -/
def c2bad : LC := "path.join(URI.parse(x), y)".data

/-- A file whose URI import statement occurs twice. -/
def c3bad : LC := uriImportSemi ++ '\n' :: uriImportSemi

/-- A file whose rule 3 output becomes a rule 2 trigger on the second run. -/
def c4bad : LC := "path.join(URI.joinPath(a), b)".data

/-- The path of the end-to-end scenario file. -/
def c9path : LC := "a.ts".data

/-- The content of the end-to-end scenario file. -/
def c9content : LC := uriImportSemi ++ '\n' :: "foo(path.join(URI.file(p), q));".data

/-- The expected rewritten content of the end-to-end scenario file. -/
def c9fixed : LC :=
  uriImportSemi ++ '\n' ::
    (pathImportCheck ++ ';' :: '\n' :: "foo(path.join(URI.file(p).fsPath, q));".data)

/-- The end-to-end scenario file. -/
def c9file : FileSpec := ⟨c9path, c9content, false, false⟩

/-- An error-free file for the failure-propagation witness. -/
def w8a : FileSpec := ⟨"a.ts".data, "URI.joinPath(a)".data, false, false⟩

/-- A file whose read fails, for the failure-propagation witness. -/
def w8b : FileSpec := ⟨"b.ts".data, "x".data, true, false⟩

/-- A file after the failing one, for the failure-propagation witness. -/
def w8c : FileSpec := ⟨"c.ts".data, "URI.joinPath(b)".data, false, false⟩

/-! ## Basic facts about `isPre` -/

theorem isPre_iff_exists : ∀ p s : LC, isPre p s = true ↔ ∃ t, p ++ t = s
  | [], s => by simp [isPre]
  | a :: p, [] => by simp [isPre]
  | a :: p, b :: s => by
    rw [isPre, Bool.and_eq_true, beq_iff_eq, isPre_iff_exists p s]
    constructor
    · rintro ⟨rfl, t, rfl⟩
      exact ⟨t, rfl⟩
    · rintro ⟨t, ht⟩
      rw [List.cons_append] at ht
      exact ⟨(List.cons.injEq _ _ _ _ ▸ ht).1, t, (List.cons.injEq _ _ _ _ ▸ ht).2⟩

theorem isPre_self_append (p t : LC) : isPre p (p ++ t) = true :=
  (isPre_iff_exists p (p ++ t)).mpr ⟨t, rfl⟩

theorem isPre_refl (p : LC) : isPre p p = true := by
  have := isPre_self_append p []
  simpa using this

theorem isPre_length_le {p s : LC} (h : isPre p s = true) : p.length ≤ s.length := by
  obtain ⟨t, rfl⟩ := (isPre_iff_exists p s).mp h
  simp

theorem isPre_drop {p s : LC} (h : isPre p s = true) : p ++ s.drop p.length = s := by
  obtain ⟨t, rfl⟩ := (isPre_iff_exists p s).mp h
  rw [List.drop_left]

theorem isPre_of_long {p a b : LC} (h : isPre p (a ++ b) = true)
    (hl : p.length ≤ a.length) : isPre p a = true := by
  obtain ⟨t, ht⟩ := (isPre_iff_exists p (a ++ b)).mp h
  have hp : p = a.take p.length := by
    have h1 : (p ++ t).take p.length = p := List.take_left p t
    rw [ht, List.take_append_eq_append_take, Nat.sub_eq_zero_of_le hl,
      List.take_zero, List.append_nil] at h1
    exact h1.symm
  refine (isPre_iff_exists p a).mpr ⟨a.drop p.length, ?_⟩
  calc p ++ a.drop p.length = a.take p.length ++ a.drop p.length := by rw [← hp]
    _ = a := List.take_append_drop _ a

theorem isPre_of_short {p a b : LC} (h : isPre p (a ++ b) = true)
    (hl : a.length ≤ p.length) : isPre a p = true := by
  obtain ⟨t, ht⟩ := (isPre_iff_exists p (a ++ b)).mp h
  have ha : a = p.take a.length := by
    have h1 : (a ++ b).take a.length = a := List.take_left a b
    rw [← ht, List.take_append_eq_append_take, Nat.sub_eq_zero_of_le hl,
      List.take_zero, List.append_nil] at h1
    exact h1.symm
  refine (isPre_iff_exists a p).mpr ⟨p.drop a.length, ?_⟩
  calc a ++ p.drop a.length = p.take a.length ++ p.drop a.length := by rw [← ha]
    _ = p := List.take_append_drop _ p

theorem isPre_app_same : ∀ (a p s : LC), isPre (a ++ p) (a ++ s) = isPre p s
  | [], p, s => rfl
  | x :: a, p, s => by
    rw [List.cons_append, List.cons_append, isPre, beq_self_eq_true,
      Bool.true_and, isPre_app_same a p s]

theorem isPre_extend {p a : LC} (z : LC) (h : isPre p a = true) :
    isPre p (a ++ z) = true := by
  obtain ⟨t, rfl⟩ := (isPre_iff_exists p a).mp h
  exact (isPre_iff_exists _ _).mpr ⟨t ++ z, by rw [List.append_assoc]⟩

theorem isPre_trans {p q s : LC} (h1 : isPre p q = true) (h2 : isPre q s = true) :
    isPre p s = true := by
  obtain ⟨t, rfl⟩ := (isPre_iff_exists p q).mp h1
  obtain ⟨u, rfl⟩ := (isPre_iff_exists _ s).mp h2
  rw [List.append_assoc]
  exact isPre_self_append _ _

theorem isPre_nil_right {p : LC} (h : p ≠ []) : isPre p [] = false := by
  cases p with
  | nil => exact absurd rfl h
  | cons a p => rfl

theorem isPre_drop_of_isPre {p s : LC} (h : isPre p (s.drop i) = true)
    (hp : p ≠ []) : i < s.length := by
  by_contra hlt
  rw [List.drop_of_length_le (by omega)] at h
  rw [isPre_nil_right hp] at h
  exact Bool.false_ne_true h

/-! ## Basic facts about `containsSub` -/

theorem containsSub_iff : ∀ (pat s : LC),
    containsSub pat s = true ↔ ∃ j, isPre pat (s.drop j) = true
  | pat, [] => by
    constructor
    · intro h
      exact ⟨0, h⟩
    · rintro ⟨j, hj⟩
      simpa [containsSub] using hj
  | pat, c :: t => by
    rw [containsSub, Bool.or_eq_true, containsSub_iff pat t]
    constructor
    · rintro (h | ⟨j, hj⟩)
      · exact ⟨0, by simpa using h⟩
      · exact ⟨j + 1, hj⟩
    · rintro ⟨j, hj⟩
      cases j with
      | zero => exact Or.inl (by simpa using hj)
      | succ j => exact Or.inr ⟨j, hj⟩

theorem containsSub_false_all {pat s : LC} (h : containsSub pat s = false) :
    ∀ j, isPre pat (s.drop j) = false := by
  intro j
  by_contra hj
  have : containsSub pat s = true :=
    (containsSub_iff pat s).mpr ⟨j, Bool.of_not_eq_false hj⟩
  rw [h] at this
  exact Bool.false_ne_true this

theorem containsSub_of_occ {pat s : LC} (j : Nat)
    (h : isPre pat (s.drop j) = true) : containsSub pat s = true :=
  (containsSub_iff pat s).mpr ⟨j, h⟩

/-! ## Scanner lemmas -/

theorem scanGo_shift (m : LC → Option (LC × LC)) :
    ∀ (k : Nat) (t : LC), scanGo m k t = scanGo m 0 (t.drop k)
  | 0, t => by rw [List.drop_zero]
  | k + 1, [] => by rw [List.drop_nil]; rfl
  | k + 1, c :: t => by
    rw [scanGo, scanGo_shift m k t, List.drop_succ_cons]

theorem scan_nil (m : LC → Option (LC × LC)) : scan m [] = [] := rfl

theorem scan_cons_none {m : LC → Option (LC × LC)} {c : Char} {t : LC}
    (h : m (c :: t) = none) : scan m (c :: t) = c :: scan m t := by
  rw [scan, scanGo, h]
  rfl

theorem scan_step {m : LC → Option (LC × LC)} {s o r : LC} {k : Nat}
    (h : m s = some (o, r)) (hk : r = s.drop k) (h1 : 0 < k)
    (h2 : k ≤ s.length) : scan m s = o ++ scan m r := by
  cases s with
  | nil => simp at h2; omega
  | cons c t =>
    rw [scan, scanGo, h]
    show o ++ scanGo m (t.length - r.length) t = o ++ scan m r
    have hr : r.length = t.length + 1 - k := by
      rw [hk, List.length_drop, List.length_cons]
    have hlen : t.length - r.length = k - 1 := by
      simp at h2
      omega
    rw [hlen, scanGo_shift]
    obtain ⟨k', rfl⟩ : ∃ k', k = k' + 1 := ⟨k - 1, by omega⟩
    rw [Nat.add_sub_cancel]
    rw [List.drop_succ_cons] at hk
    rw [← hk]
    rfl

theorem scan_id {m : LC → Option (LC × LC)} {s : LC}
    (h : ∀ j, m (s.drop j) = none) : scan m s = s := by
  induction s with
  | nil => rfl
  | cons c t ih =>
    rw [scan_cons_none (by simpa using h 0)]
    rw [ih fun j => by simpa using h (j + 1)]

theorem scan_copy {m : LC → Option (LC × LC)} :
    ∀ (k : Nat) (s : LC), (∀ j, j < k → m (s.drop j) = none) →
      scan m s = s.take k ++ scan m (s.drop k)
  | 0, s, _ => by rw [List.take_zero, List.drop_zero, List.nil_append]
  | k + 1, [], _ => by rw [List.take_nil, List.drop_nil, List.nil_append]
  | k + 1, c :: t, h => by
    rw [scan_cons_none (by simpa using h 0 (by omega)),
      scan_copy k t fun j hj => by simpa using h (j + 1) (by omega),
      List.take_succ_cons, List.drop_succ_cons, List.cons_append]

theorem hasMatch_false_all {m : LC → Option (LC × LC)} {s : LC}
    (h : hasMatch m s = false) : ∀ j, m (s.drop j) = none := by
  induction s with
  | nil =>
    intro j
    rw [List.drop_nil]
    rw [hasMatch] at h
    exact Option.not_isSome_iff_eq_none.mp (by rw [h]; exact Bool.false_ne_true)
  | cons c t ih =>
    rw [hasMatch, Bool.or_eq_false_iff] at h
    intro j
    cases j with
    | zero =>
      rw [List.drop_zero]
      exact Option.not_isSome_iff_eq_none.mp (by rw [h.1]; exact Bool.false_ne_true)
    | succ j =>
      rw [List.drop_succ_cons]
      exact ih h.2 j

theorem scan_id_of_no_match {m : LC → Option (LC × LC)} {s : LC}
    (h : hasMatch m s = false) : scan m s = s :=
  scan_id (hasMatch_false_all h)

/-! ## takeWhile / dropWhile helpers -/

theorem nonParen_eq_false {c : Char} : nonParen c = false ↔ c = ')' := by
  simp [nonParen]

theorem nonParen_eq_true {c : Char} : nonParen c = true ↔ c ≠ ')' := by
  simp [nonParen]

theorem takeWhile_stop (p : Char → Bool) :
    ∀ (x : LC), (∀ c ∈ x, p c = true) → ∀ (y : Char), p y = false → ∀ (z : LC),
      (x ++ y :: z).takeWhile p = x ∧ (x ++ y :: z).dropWhile p = y :: z
  | [], _, y, hy, z => by
    rw [List.nil_append]
    constructor
    · rw [List.takeWhile_cons, if_neg (by rw [hy]; exact Bool.false_ne_true)]
    · rw [List.dropWhile_cons, if_neg (by rw [hy]; exact Bool.false_ne_true)]
  | c :: x, hx, y, hy, z => by
    have hc : p c = true := hx c (List.mem_cons_self _ _)
    have ih := takeWhile_stop p x (fun d hd => hx d (List.mem_cons_of_mem c hd)) y hy z
    rw [List.cons_append]
    constructor
    · rw [List.takeWhile_cons, if_pos hc, ih.1]
    · rw [List.dropWhile_cons, if_pos hc, ih.2]

theorem dropWhile_head_false (p : Char → Bool) :
    ∀ (l : LC) (b : Char) (r : LC), l.dropWhile p = b :: r → p b = false
  | [], b, r, h => by simp at h
  | c :: t, b, r, h => by
    rw [List.dropWhile_cons] at h
    by_cases hc : p c = true
    · rw [if_pos hc] at h
      exact dropWhile_head_false p t b r h
    · rw [if_neg hc] at h
      have hb : b = c := ((List.cons.injEq c t b r).mp h).1.symm
      rw [hb]
      exact Bool.eq_false_iff.mpr hc

/-! ## Matcher characterisations -/

theorem drop_len_add (a z : LC) (n : Nat) :
    (a ++ z).drop (a.length + n) = z.drop n := by
  rw [List.drop_append_eq_append_drop, List.drop_of_length_le (by omega),
    Nat.add_sub_cancel_left, List.nil_append]

theorem match3_nil : match3 [] = none := rfl

theorem match3_none_not_pre {s : LC} (h : isPre joinPathTrig s = false) :
    match3 s = none := by
  rw [match3, if_neg (by rw [h]; exact Bool.false_ne_true)]

theorem match3_elim {s o r : LC} (h : match3 s = some (o, r)) :
    o = fixmeRepl ∧ ∃ run, s = joinPathTrig ++ (run ++ ')' :: r) ∧ run ≠ [] ∧
      ∀ ch ∈ run, nonParen ch = true := by
  rw [match3] at h
  by_cases hp : isPre joinPathTrig s = true
  · rw [if_pos hp] at h
    by_cases hc : (s.drop joinPathTrig.length).takeWhile nonParen ≠ [] ∧
        (s.drop joinPathTrig.length).dropWhile nonParen ≠ []
    · rw [if_pos hc] at h
      rw [Option.some.injEq, Prod.mk.injEq] at h
      obtain ⟨ho, hr⟩ := h
      cases hu : (s.drop joinPathTrig.length).dropWhile nonParen with
      | nil => exact absurd hu hc.2
      | cons b rest =>
        have hb : b = ')' :=
          nonParen_eq_false.mp (dropWhile_head_false nonParen _ b rest hu)
        rw [hu, List.drop_one, List.tail_cons] at hr
        rw [hb, hr] at hu
        refine ⟨ho.symm, (s.drop joinPathTrig.length).takeWhile nonParen, ?_, hc.1,
          fun ch hch => List.mem_takeWhile_imp hch⟩
        have hsplit := List.takeWhile_append_dropWhile (p := nonParen)
          (l := s.drop joinPathTrig.length)
        rw [hu] at hsplit
        rw [hsplit]
        exact (isPre_drop hp).symm
    · rw [if_neg hc] at h
      simp at h
  · rw [if_neg hp] at h
    simp at h

theorem match3_intro (run rest : LC) (hne : run ≠ [])
    (hnp : ∀ ch ∈ run, nonParen ch = true) :
    match3 (joinPathTrig ++ (run ++ ')' :: rest)) = some (fixmeRepl, rest) := by
  have hpre := isPre_self_append joinPathTrig (run ++ ')' :: rest)
  have hdrop : (joinPathTrig ++ (run ++ ')' :: rest)).drop joinPathTrig.length
      = run ++ ')' :: rest := List.drop_left _ _
  have hst := takeWhile_stop nonParen run hnp ')' (by decide) rest
  rw [match3, if_pos hpre, hdrop, hst.1, hst.2,
    if_pos ⟨hne, by exact List.cons_ne_nil _ _⟩, List.drop_one, List.tail_cons]

theorem match3_consume {s o r : LC} (h : match3 s = some (o, r)) :
    ∃ k, 0 < k ∧ k ≤ s.length ∧ r = s.drop k := by
  obtain ⟨-, run, rfl, hne, -⟩ := match3_elim h
  refine ⟨joinPathTrig.length + (run.length + 1), by omega, ?_, ?_⟩
  · rw [List.length_append, List.length_append, List.length_cons]
    omega
  · rw [drop_len_add, drop_len_add run (')' :: r) 1, List.drop_one, List.tail_cons]

theorem sub3_step {s o r : LC} (h : match3 s = some (o, r)) :
    sub3 s = o ++ sub3 r := by
  obtain ⟨k, hk1, hk2, hk3⟩ := match3_consume h
  exact scan_step h hk3 hk1 hk2

theorem match3_needs_paren {s : LC} {pr : LC × LC} (h : match3 s = some pr) :
    ')' ∈ s := by
  obtain ⟨o, r⟩ := pr
  obtain ⟨-, run, rfl, -, -⟩ := match3_elim h
  exact List.mem_append_right _ (List.mem_append_right _ (List.mem_cons_self _ _))

theorem matchArm_none_not_pre {trig s : LC} (h : isPre trig s = false) :
    matchArm trig s = none := by
  rw [matchArm, if_neg (by rw [h]; exact Bool.false_ne_true)]

theorem matchArm_elim {trig s o r : LC} (h : matchArm trig s = some (o, r)) :
    ∃ run, s = trig ++ (run ++ ')' :: ',' :: r) ∧ o = trig ++ run ++ fsPathClose ∧
      run ≠ [] ∧ ∀ ch ∈ run, nonParen ch = true := by
  rw [matchArm] at h
  by_cases hp : isPre trig s = true
  · rw [if_pos hp] at h
    by_cases hc : (s.drop trig.length).takeWhile nonParen ≠ [] ∧
        isPre closeComma ((s.drop trig.length).dropWhile nonParen) = true
    · rw [if_pos hc] at h
      rw [Option.some.injEq, Prod.mk.injEq] at h
      obtain ⟨ho, hr⟩ := h
      obtain ⟨t2, ht2⟩ := (isPre_iff_exists closeComma _).mp hc.2
      have ht2' : (s.drop trig.length).dropWhile nonParen = ')' :: ',' :: t2 := by
        rw [← ht2]
        rfl
      rw [ht2', List.drop_succ_cons, List.drop_succ_cons, List.drop_zero] at hr
      refine ⟨(s.drop trig.length).takeWhile nonParen, ?_, ho.symm, hc.1,
        fun ch hch => List.mem_takeWhile_imp hch⟩
      have hsplit := List.takeWhile_append_dropWhile (p := nonParen)
        (l := s.drop trig.length)
      rw [ht2', hr] at hsplit
      rw [hsplit]
      exact (isPre_drop hp).symm
    · rw [if_neg hc] at h
      simp at h
  · rw [if_neg hp] at h
    simp at h

theorem matchArm_intro (trig x rest : LC) (hne : x ≠ [])
    (hnp : ∀ ch ∈ x, nonParen ch = true) :
    matchArm trig (trig ++ (x ++ ')' :: ',' :: rest))
      = some (trig ++ x ++ fsPathClose, rest) := by
  have hpre := isPre_self_append trig (x ++ ')' :: ',' :: rest)
  have hdrop : (trig ++ (x ++ ')' :: ',' :: rest)).drop trig.length
      = x ++ ')' :: ',' :: rest := List.drop_left _ _
  have hst := takeWhile_stop nonParen x hnp ')' (by decide) (',' :: rest)
  have hcc : isPre closeComma (')' :: ',' :: rest) = true := by
    have := isPre_self_append closeComma rest
    rw [closeComma] at this ⊢
    rw [List.cons_append, List.cons_append, List.nil_append] at this
    exact this
  rw [matchArm, if_pos hpre, hdrop, hst.1, hst.2, if_pos ⟨hne, hcc⟩,
    List.drop_succ_cons, List.drop_succ_cons, List.drop_zero]

theorem matchArm_consume {trig s o r : LC} (h : matchArm trig s = some (o, r)) :
    ∃ k, 0 < k ∧ k ≤ s.length ∧ r = s.drop k := by
  obtain ⟨run, rfl, -, -, -⟩ := matchArm_elim h
  refine ⟨trig.length + (run.length + 2), by omega, ?_, ?_⟩
  · rw [List.length_append, List.length_append, List.length_cons, List.length_cons]
    omega
  · rw [drop_len_add, drop_len_add run (')' :: ',' :: r) 2,
      List.drop_succ_cons, List.drop_succ_cons, List.drop_zero]

theorem match2_eq_parse {s : LC} {pr : LC × LC}
    (h : matchArm pjParseTrig s = some pr) : match2 s = some pr := by
  rw [match2, h]

theorem match2_eq_file {s : LC} (h1 : matchArm pjParseTrig s = none) :
    match2 s = matchArm pjFileTrig s := by
  rw [match2, h1]

theorem match2_consume {s o r : LC} (h : match2 s = some (o, r)) :
    ∃ k, 0 < k ∧ k ≤ s.length ∧ r = s.drop k := by
  rw [match2] at h
  cases hp : matchArm pjParseTrig s with
  | some pr =>
    rw [hp] at h
    rw [Option.some.injEq] at h
    rw [h] at hp
    exact matchArm_consume hp
  | none =>
    rw [hp] at h
    exact matchArm_consume h

theorem sub2_step {s o r : LC} (h : match2 s = some (o, r)) :
    sub2 s = o ++ sub2 r := by
  obtain ⟨k, hk1, hk2, hk3⟩ := match2_consume h
  exact scan_step h hk3 hk1 hk2

/-! ## `replaceAll` lemmas -/

theorem replM_some {pat rep s : LC} (hp : pat ≠ []) (h : isPre pat s = true) :
    replM pat rep s = some (rep, s.drop pat.length) := by
  rw [replM, if_pos ⟨hp, h⟩]

theorem replM_none {pat rep s : LC} (h : isPre pat s = false) :
    replM pat rep s = none := by
  rw [replM, if_neg]
  rintro ⟨-, h2⟩
  rw [h] at h2
  exact Bool.false_ne_true h2

theorem replaceAll_id {pat rep s : LC} (h : ∀ j, isPre pat (s.drop j) = false) :
    replaceAll pat rep s = s :=
  scan_id fun j => replM_none (h j)

theorem replaceAll_id_of_not_contains {pat rep s : LC}
    (h : containsSub pat s = false) : replaceAll pat rep s = s :=
  replaceAll_id (containsSub_false_all h)

/-! ## The two rule 2 alternatives never match each other -/

theorem parse_trig_decomp : pjParseTrig = "path.join(URI.".data ++ 'p' :: "arse(".data := by
  decide

theorem file_trig_decomp : pjFileTrig = "path.join(URI.".data ++ 'f' :: "ile(".data := by
  decide

theorem isPre_parse_on_file (z : LC) : isPre pjParseTrig (pjFileTrig ++ z) = false := by
  rw [parse_trig_decomp, file_trig_decomp, List.append_assoc, isPre_app_same,
    List.cons_append, isPre]
  rw [show ('p' == 'f') = false by decide, Bool.false_and]

theorem isPre_file_on_parse (z : LC) : isPre pjFileTrig (pjParseTrig ++ z) = false := by
  rw [parse_trig_decomp, file_trig_decomp, List.append_assoc, isPre_app_same,
    List.cons_append, isPre]
  rw [show ('f' == 'p') = false by decide, Bool.false_and]

theorem match2_parse_frag (x rest : LC) (hne : x ≠ [])
    (hnp : ∀ ch ∈ x, nonParen ch = true) :
    match2 (pjParseTrig ++ (x ++ ')' :: ',' :: rest))
      = some (pjParseTrig ++ x ++ fsPathClose, rest) :=
  match2_eq_parse (matchArm_intro pjParseTrig x rest hne hnp)

theorem match2_file_frag (x rest : LC) (hne : x ≠ [])
    (hnp : ∀ ch ∈ x, nonParen ch = true) :
    match2 (pjFileTrig ++ (x ++ ')' :: ',' :: rest))
      = some (pjFileTrig ++ x ++ fsPathClose, rest) := by
  rw [match2_eq_file (matchArm_none_not_pre (isPre_parse_on_file _))]
  exact matchArm_intro pjFileTrig x rest hne hnp

theorem matchArm_none_bad_tail (trig x rest : LC)
    (hnp : ∀ ch ∈ x, nonParen ch = true) (y : Char) (hy : y ≠ ',') :
    matchArm trig (trig ++ (x ++ ')' :: y :: rest)) = none := by
  have hpre := isPre_self_append trig (x ++ ')' :: y :: rest)
  have hdrop : (trig ++ (x ++ ')' :: y :: rest)).drop trig.length
      = x ++ ')' :: y :: rest := List.drop_left _ _
  have hst := takeWhile_stop nonParen x hnp ')' (by decide) (y :: rest)
  rw [matchArm, if_pos hpre, hdrop, hst.1, hst.2, if_neg]
  rintro ⟨-, hcc⟩
  simp only [closeComma, isPre, Bool.and_eq_true, beq_iff_eq] at hcc
  exact hy hcc.2.1.symm

theorem mem_nested_nonParen {u v : LC} (hu : ')' ∉ u) (hv : ')' ∉ v) :
    ∀ ch ∈ u ++ '(' :: v, nonParen ch = true := by
  intro ch hch
  rw [nonParen_eq_true]
  rcases List.mem_append.mp hch with h | h
  · exact fun he => hu (he ▸ h)
  · rcases List.mem_cons.mp h with h | h
    · rw [h]
      decide
    · exact fun he => hv (he ▸ h)

/-! ## Occurrence counting -/

theorem filter_eq_single {p : Nat → Bool} {a : Nat} :
    ∀ (l : List Nat), l.Nodup → a ∈ l → p a = true →
      (∀ b, p b = true → b = a) → l.filter p = [a]
  | [], _, hmem, _, _ => absurd hmem (List.not_mem_nil a)
  | x :: xs, hnd, hmem, hpa, hu => by
    obtain ⟨hx_nmem, hnd'⟩ := List.nodup_cons.mp hnd
    rw [List.filter_cons]
    by_cases hx : p x = true
    · rw [if_pos hx]
      have hxa : x = a := hu x hx
      subst hxa
      have hfe : xs.filter p = [] := by
        rw [List.filter_eq_nil_iff]
        intro b hb hpb
        exact hx_nmem (hu b hpb ▸ hb)
      rw [hfe]
    · rw [if_neg hx]
      have hmem' : a ∈ xs := by
        rcases List.mem_cons.mp hmem with h | h
        · exact absurd (h ▸ hpa) hx
        · exact h
      exact filter_eq_single xs hnd' hmem' hpa hu

theorem countPos_eq_one_intro {pat s : LC} (hp : pat ≠ []) (a : Nat)
    (ha : isPre pat (s.drop a) = true)
    (hu : ∀ j, isPre pat (s.drop j) = true → j = a) : countPos pat s = 1 := by
  rw [countPos]
  have hlt : a < s.length + 1 := Nat.lt_succ_of_lt (isPre_drop_of_isPre ha hp)
  rw [filter_eq_single (List.range (s.length + 1)) (List.nodup_range _)
    (List.mem_range.mpr hlt) ha hu]
  rfl

theorem countPos_eq_one_elim {pat s : LC} (hp : pat ≠ [])
    (h : countPos pat s = 1) :
    ∃ a, isPre pat (s.drop a) = true ∧ ∀ j, isPre pat (s.drop j) = true → j = a := by
  rw [countPos] at h
  obtain ⟨a, ha⟩ := List.length_eq_one.mp h
  have hmem : a ∈ (List.range (s.length + 1)).filter
      (fun i => isPre pat (s.drop i)) := by
    rw [ha]
    exact List.mem_cons_self _ _
  refine ⟨a, (List.mem_filter.mp hmem).2, ?_⟩
  intro j hj
  have hjlt : j < s.length + 1 := Nat.lt_succ_of_lt (isPre_drop_of_isPre hj hp)
  have hjmem : j ∈ (List.range (s.length + 1)).filter
      (fun i => isPre pat (s.drop i)) :=
    List.mem_filter.mpr ⟨List.mem_range.mpr hjlt, hj⟩
  rw [ha] at hjmem
  exact List.mem_singleton.mp hjmem

/-! ## Occurrences across concatenation -/

theorem occ_cases {p X Y : LC} {j : Nat} (h : isPre p ((X ++ Y).drop j) = true) :
    (j + p.length ≤ X.length ∧ isPre p (X.drop j) = true) ∨
    (X.length ≤ j ∧ isPre p (Y.drop (j - X.length)) = true) ∨
    (j < X.length ∧ X.length < j + p.length ∧ isPre (X.drop j) p = true ∧
      isPre (p.drop (X.length - j)) Y = true) := by
  rcases Nat.lt_or_ge j X.length with hj | hj
  · have hd : (X ++ Y).drop j = X.drop j ++ Y := by
      rw [List.drop_append_eq_append_drop, Nat.sub_eq_zero_of_le (le_of_lt hj),
        List.drop_zero]
    rw [hd] at h
    have hlen : (X.drop j).length = X.length - j := List.length_drop _ _
    rcases le_or_lt p.length (X.length - j) with hl | hl
    · exact Or.inl ⟨by omega, isPre_of_long h (by rw [hlen]; exact hl)⟩
    · right; right
      have h2 : isPre (X.drop j) p = true := isPre_of_short h (by rw [hlen]; omega)
      refine ⟨hj, by omega, h2, ?_⟩
      obtain ⟨t, ht⟩ := (isPre_iff_exists _ _).mp h2
      have htt : t = p.drop (X.length - j) := by
        rw [← ht, ← hlen, List.drop_left]
      rw [← ht, isPre_app_same] at h
      rw [← htt]
      exact h
  · right; left
    have hd : (X ++ Y).drop j = Y.drop (j - X.length) := by
      rw [List.drop_append_eq_append_drop, List.drop_of_length_le hj,
        List.nil_append]
    rw [hd] at h
    exact ⟨hj, h⟩

theorem occ_in_left {p X : LC} (Y : LC) {j : Nat} (hj : j ≤ X.length)
    (h : isPre p (X.drop j) = true) : isPre p ((X ++ Y).drop j) = true := by
  have hd : (X ++ Y).drop j = X.drop j ++ Y := by
    rw [List.drop_append_eq_append_drop, Nat.sub_eq_zero_of_le hj, List.drop_zero]
  rw [hd]
  exact isPre_extend Y h

theorem occ_in_right {p : LC} (X : LC) {Y : LC} {j : Nat}
    (h : isPre p (Y.drop j) = true) :
    isPre p ((X ++ Y).drop (X.length + j)) = true := by
  rw [drop_len_add]
  exact h

/-! ## `replaceAll` at a unique occurrence -/

theorem replaceAll_single {pat rep : LC} (hp : pat ≠ []) :
    ∀ (A B : LC), (∀ j, isPre pat ((A ++ (pat ++ B)).drop j) = true → j = A.length) →
      replaceAll pat rep (A ++ (pat ++ B)) = A ++ (rep ++ B)
  | [], B, hu => by
    simp only [List.nil_append, List.length_nil] at hu ⊢
    have hpre : isPre pat (pat ++ B) = true := isPre_self_append _ _
    have hstep : replM pat rep (pat ++ B) = some (rep, B) := by
      rw [replM_some hp hpre, List.drop_left]
    show scan (replM pat rep) (pat ++ B) = rep ++ B
    rw [scan_step hstep (List.drop_left pat B).symm
      (List.length_pos.mpr hp) (by rw [List.length_append]; omega)]
    have hid : scan (replM pat rep) B = B := by
      apply scan_id
      intro j
      apply replM_none
      by_contra hx
      have hocc : isPre pat ((pat ++ B).drop (pat.length + j)) = true :=
        occ_in_right pat (Bool.of_not_eq_false hx)
      have h0 := hu (pat.length + j) hocc
      have hlp : 0 < pat.length := List.length_pos.mpr hp
      omega
    rw [hid]
  | a :: A, B, hu => by
    simp only [List.cons_append] at hu ⊢
    have hfalse : isPre pat (a :: (A ++ (pat ++ B))) = false := by
      by_contra hx
      have h0 := hu 0 (by rw [List.drop_zero]; exact Bool.of_not_eq_false hx)
      rw [List.length_cons] at h0
      omega
    show scan (replM pat rep) (a :: (A ++ (pat ++ B))) = _
    rw [scan_cons_none (replM_none hfalse)]
    have ih := @replaceAll_single pat rep hp A B fun j hj => by
      have h1 := hu (j + 1) (by rw [List.drop_succ_cons]; exact hj)
      rw [List.length_cons] at h1
      omega
    exact congrArg (fun l => a :: l) ih

/-! ## Concrete facts about the import literals -/

theorem uriChk_pre_semi : isPre uriImportCheck uriImportSemi = true := by decide

theorem uriSemi_ne_nil : uriImportSemi ≠ [] := by decide

theorem pathChk_ne_nil : pathImportCheck ≠ [] := by decide

theorem pathChk_len : pathImportCheck.length = 28 := by decide

theorem uriSemi_len : uriImportSemi.length = 33 := by decide

theorem insRepl_len : uriImportInsert.length = 63 := by decide

theorem insRepl_drop34 : uriImportInsert.drop 34 = pathImportCheck ++ [';'] := by
  decide

theorem straddle_left_none :
    ∀ k, k < 28 → 0 < k → isPre (pathImportCheck.drop k) uriImportInsert = false := by
  decide

theorem inside_insert_unique :
    ∀ i, i < 36 → isPre pathImportCheck (uriImportInsert.drop i) = true → i = 34 := by
  decide

theorem straddle_right_none :
    ∀ i, i < 63 → 36 ≤ i → isPre (uriImportInsert.drop i) pathImportCheck = false := by
  decide

/-! ## Idempotence of rule 3 -/

theorem fixme_len : fixmeRepl.length = 17 := by decide

theorem trig_len : joinPathTrig.length = 13 := by decide

theorem trig_head : joinPathTrig = 'U' :: joinPathTrig.drop 1 := by decide

theorem fixme_no_trig_long : ∀ i, i < 5 →
    isPre joinPathTrig (fixmeRepl.drop i) = false := by
  decide

theorem fixme_no_trig_short : ∀ i, i < 17 → 4 < i →
    isPre (fixmeRepl.drop i) joinPathTrig = false := by
  decide

theorem trigTail_not_pre_fixme : ∀ k, k < 13 → 0 < k →
    isPre (joinPathTrig.drop k) fixmeRepl = false := by
  decide

theorem trigTail_not_pre_trig : ∀ k, k < 13 → 0 < k →
    isPre (joinPathTrig.drop k) joinPathTrig = false := by
  decide

theorem isPre_head_ne {a b : Char} (p s : LC) (h : (a == b) = false) :
    isPre (a :: p) (b :: s) = false := by
  rw [isPre, h, Bool.false_and]

theorem sub3_nil : sub3 [] = [] := rfl

/-- No occurrence of the rule 3 trigger starts strictly inside the `FIXME`
replacement text, whatever follows it. -/
theorem noTrig_fixme : ∀ i, i < 17 → ∀ X : LC,
    isPre joinPathTrig (fixmeRepl.drop i ++ X) = false := by
  intro i hi X
  by_contra hx
  have h := Bool.of_not_eq_false hx
  have hdl : (fixmeRepl.drop i).length = 17 - i := by
    rw [List.length_drop, fixme_len]
  rcases le_or_lt joinPathTrig.length (fixmeRepl.drop i).length with hl | hl
  · have h2 := isPre_of_long h hl
    rw [fixme_no_trig_long i (by rw [hdl, trig_len] at hl; omega)] at h2
    exact Bool.false_ne_true h2
  · have h2 := isPre_of_short h (le_of_lt hl)
    rw [fixme_no_trig_short i hi (by rw [hdl, trig_len] at hl; omega)] at h2
    exact Bool.false_ne_true h2

/-- No occurrence of the rule 3 trigger starts strictly inside the trigger
itself, whatever follows it. -/
theorem noTrig_in_tail : ∀ j, 0 < j → j < 13 → ∀ X : LC,
    isPre joinPathTrig (joinPathTrig.drop j ++ X) = false := by
  intro j h1 h2 X
  by_contra hx
  have h := Bool.of_not_eq_false hx
  have hdl : (joinPathTrig.drop j).length = 13 - j := by
    rw [List.length_drop, trig_len]
  have h3 := isPre_of_short h (by rw [hdl, trig_len]; omega)
  rw [trigTail_not_pre_trig j h2 h1] at h3
  exact Bool.false_ne_true h3

/-- A pattern no longer than the `FIXME` text none of whose suffixes is a
prefix of the `FIXME` text survives `sub3`: if it is a prefix of `sub3 t`,
it is a prefix of `t`. -/
theorem pre_sub3_pre : ∀ (n : Nat) (t : LC), t.length ≤ n →
    ∀ p : LC, p.length ≤ fixmeRepl.length →
      (∀ j, j < p.length → isPre (p.drop j) fixmeRepl = false) →
      isPre p (sub3 t) = true → isPre p t = true
  | 0, t, hn, p, _, _, h => by
    rw [List.length_eq_zero.mp (Nat.le_zero.mp hn)] at h ⊢
    exact h
  | n + 1, t, hn, p, hlen, hS, h => by
    cases hm : match3 t with
    | some pr =>
      obtain ⟨o, r⟩ := pr
      have ho : o = fixmeRepl := (match3_elim hm).1
      have hstep : sub3 t = fixmeRepl ++ sub3 r := ho ▸ sub3_step hm
      rw [hstep] at h
      cases p with
      | nil => rfl
      | cons a p' =>
        exfalso
        have h2 := isPre_of_long h (by rw [fixme_len]; rw [fixme_len] at hlen; omega)
        have h3 := hS 0 (by rw [List.length_cons]; omega)
        rw [List.drop_zero] at h3
        rw [h3] at h2
        exact Bool.false_ne_true h2
    | none =>
      cases t with
      | nil =>
        rw [sub3_nil] at h
        cases p with
        | nil => rfl
        | cons a p' => exact absurd h (by rw [isPre]; exact Bool.false_ne_true)
      | cons c t' =>
        have hs3 : sub3 (c :: t') = c :: sub3 t' := scan_cons_none hm
        rw [hs3] at h
        cases p with
        | nil => rfl
        | cons a p' =>
          rw [isPre, Bool.and_eq_true] at h
          obtain ⟨hac, hp'⟩ := h
          have ih := pre_sub3_pre n t' (by rw [List.length_cons] at hn; omega) p'
            (by rw [List.length_cons] at hlen; omega)
            (fun j hj => by
              have := hS (j + 1) (by rw [List.length_cons]; omega)
              rw [List.drop_succ_cons] at this
              exact this)
            hp'
          rw [isPre, hac, Bool.true_and]
          exact ih

/-! ## The decisive no-close-paren facts -/

theorem sub3_id_no_paren {u : LC} (h : ')' ∉ u) : sub3 u = u := by
  apply scan_id
  intro j
  cases hm : match3 (u.drop j) with
  | none => rfl
  | some pr =>
    exact absurd (List.drop_subset j u (match3_needs_paren hm)) h

/-- After `sub3`, no position matches rule 3 any more. -/
theorem sub3_no_match : ∀ (n : Nat) (s : LC), s.length ≤ n →
    ∀ i, match3 ((sub3 s).drop i) = none
  | 0, s, hn, i => by
    rw [List.length_eq_zero.mp (Nat.le_zero.mp hn), sub3_nil, List.drop_nil]
    exact match3_nil
  | n + 1, s, hn, i => by
    cases hm : match3 s with
    | some pr =>
      obtain ⟨o, r⟩ := pr
      have ho : o = fixmeRepl := (match3_elim hm).1
      have hstep : sub3 s = fixmeRepl ++ sub3 r := ho ▸ sub3_step hm
      obtain ⟨k, hk1, hk2, hk3⟩ := match3_consume hm
      have hrlen : r.length < s.length := by
        rw [hk3, List.length_drop]
        omega
      rcases lt_or_ge i 17 with hi | hi
      · have hd : (fixmeRepl ++ sub3 r).drop i = fixmeRepl.drop i ++ sub3 r := by
          rw [List.drop_append_eq_append_drop,
            Nat.sub_eq_zero_of_le (by rw [fixme_len]; omega), List.drop_zero]
        rw [hstep, hd]
        exact match3_none_not_pre (noTrig_fixme i hi _)
      · have hd : (fixmeRepl ++ sub3 r).drop i = (sub3 r).drop (i - 17) := by
          rw [List.drop_append_eq_append_drop,
            List.drop_of_length_le (by rw [fixme_len]; omega), List.nil_append,
            fixme_len]
        rw [hstep, hd]
        exact sub3_no_match n r (by omega) (i - 17)
    | none =>
      cases s with
      | nil =>
        rw [sub3_nil, List.drop_nil]
        exact match3_nil
      | cons c t =>
        have hs3 : sub3 (c :: t) = c :: sub3 t := scan_cons_none hm
        cases i with
        | succ i' =>
          rw [hs3, List.drop_succ_cons]
          exact sub3_no_match n t (by rw [List.length_cons] at hn; omega) i'
        | zero =>
          rw [hs3, List.drop_zero]
          by_cases hp : isPre joinPathTrig (c :: t) = true
          · -- the trigger is present but the argument or paren check failed
            obtain ⟨u, hu⟩ := (isPre_iff_exists _ _).mp hp
            have hc : c = 'U' := by
              rw [trig_head, List.cons_append] at hu
              exact ((List.cons.injEq _ _ _ _).mp hu).1.symm
            have ht : t = joinPathTrig.drop 1 ++ u := by
              rw [trig_head, List.cons_append] at hu
              exact ((List.cons.injEq _ _ _ _).mp hu).2.symm
            have htl : (joinPathTrig.drop 1).length = 12 := by decide
            have hcopy : sub3 t = joinPathTrig.drop 1 ++ sub3 u := by
              have hnm : ∀ j, j < 12 → match3 (t.drop j) = none := by
                intro j hj
                have hdj : t.drop j = joinPathTrig.drop (1 + j) ++ u := by
                  rw [ht, List.drop_append_eq_append_drop,
                    Nat.sub_eq_zero_of_le (by rw [htl]; omega), List.drop_zero,
                    List.drop_drop]
                rw [hdj]
                exact match3_none_not_pre (noTrig_in_tail (1 + j) (by omega)
                  (by omega) u)
              have := scan_copy 12 t hnm
              rw [ht] at this
              rw [show (12 : Nat) = (joinPathTrig.drop 1).length from htl.symm]
                at this
              rw [List.take_left, List.drop_left] at this
              rw [ht]
              exact this
            have hfull : c :: sub3 t = joinPathTrig ++ sub3 u := by
              rw [hcopy, hc, ← List.cons_append, ← trig_head]
            rw [hfull]
            -- analyse why the original match failed
            rw [match3, if_pos hp] at hm
            have hud : (c :: t).drop joinPathTrig.length = u := by
              rw [← hu, List.drop_left]
            rw [hud] at hm
            have hfail : u.takeWhile nonParen = [] ∨ u.dropWhile nonParen = [] := by
              by_contra hboth
              push_neg at hboth
              rw [if_pos hboth] at hm
              simp at hm
            have hgoal : ∀ w : LC, w.takeWhile nonParen = [] ∨
                w.dropWhile nonParen = [] →
                match3 (joinPathTrig ++ w) = none := by
              intro w hw
              rw [match3, if_pos (isPre_self_append _ _), List.drop_left, if_neg]
              rintro ⟨hw1, hw2⟩
              rcases hw with hw | hw
              · exact hw1 hw
              · exact hw2 hw
            rcases hfail with hfA | hfB
            · -- the run is empty: first char after the trigger is a paren
              cases u with
              | nil =>
                rw [sub3_nil]
                exact hgoal [] (Or.inl rfl)
              | cons d u' =>
                have hd : nonParen d = false := by
                  by_contra hdx
                  rw [List.takeWhile_cons, if_pos (Bool.of_not_eq_false hdx)]
                    at hfA
                  exact List.cons_ne_nil _ _ hfA
                have hdp : d = ')' := nonParen_eq_false.mp hd
                have hnm0 : match3 (d :: u') = none := by
                  apply match3_none_not_pre
                  rw [trig_head, hdp]
                  exact isPre_head_ne _ _ (by decide)
                have hcons : sub3 (d :: u') = d :: sub3 u' := scan_cons_none hnm0
                rw [hcons]
                apply hgoal
                left
                rw [List.takeWhile_cons, if_neg (by rw [hd]; exact Bool.false_ne_true)]
            · -- no closing paren at all after the trigger
              have hnp : ')' ∉ u := by
                intro hmem
                have := (List.dropWhile_eq_nil_iff.mp hfB) ')' hmem
                rw [nonParen_eq_false.mpr rfl] at this
                exact Bool.false_ne_true this
              rw [sub3_id_no_paren hnp]
              exact hgoal u (Or.inr hfB)
          · -- the trigger is not present: it cannot appear after `sub3` either
            apply match3_none_not_pre
            by_contra hx
            have hx' := Bool.of_not_eq_false hx
            rw [trig_head, isPre, Bool.and_eq_true, beq_iff_eq] at hx'
            obtain ⟨hUc, htail⟩ := hx'
            have htail_t := pre_sub3_pre t.length t (le_refl _) (joinPathTrig.drop 1)
              (by decide)
              (fun j hj => by
                rw [List.drop_drop]
                have hjl : j < 12 := by
                  have h12 : (joinPathTrig.drop 1).length = 12 := by decide
                  omega
                exact trigTail_not_pre_fixme (1 + j) (by omega) (by omega))
              htail
            have : isPre joinPathTrig (c :: t) = true := by
              rw [trig_head, isPre, Bool.and_eq_true]
              exact ⟨beq_iff_eq.mpr hUc, htail_t⟩
            exact hp this

/-- Rule 3 is idempotent: running it on its own output changes nothing. -/
theorem sub3_idem (s : LC) : sub3 (sub3 s) = sub3 s :=
  scan_id (sub3_no_match s.length s (le_refl _))

/-! ## Driver lemmas -/

theorem processOne_of_succeeds {f : FileSpec} (h : succeeds f = true) :
    ∃ pr, processOne f = some pr := by
  rw [succeeds, Bool.and_eq_true] at h
  obtain ⟨hrf, hrest⟩ := h
  have hrf' : f.readFails = false := by simpa using hrf
  rw [processOne, if_neg (by rw [hrf']; exact Bool.false_ne_true)]
  by_cases hch : fixContent f.content ≠ f.content
  · rw [if_pos hch]
    have hrest' : (fixContent f.content == f.content) = true ∨
        f.writeFails = false := by simpa using hrest
    rcases hrest' with hbeq | hwf
    · exact absurd (beq_iff_eq.mp hbeq) hch
    · rw [if_neg (by rw [hwf]; exact Bool.false_ne_true)]
      exact ⟨_, rfl⟩
  · rw [if_neg hch]
    exact ⟨_, rfl⟩

theorem processOne_of_fails {f : FileSpec} (h : succeeds f = false) :
    processOne f = none := by
  cases hr : f.readFails with
  | true => rw [processOne, if_pos hr]
  | false =>
    rw [processOne, if_neg (by rw [hr]; exact Bool.false_ne_true)]
    rw [succeeds, hr] at h
    simp only [Bool.not_false, Bool.true_and, Bool.or_eq_false_iff,
      Bool.not_eq_false'] at h
    obtain ⟨hbeq, hwf⟩ := h
    have hne : fixContent f.content ≠ f.content := by
      intro he
      rw [he] at hbeq
      simp at hbeq
    rw [if_pos hne, if_pos hwf]

theorem runFiles_append_ok : ∀ (as : List FileSpec),
    (∀ g ∈ as, succeeds g = true) → ∀ rest : List FileSpec,
      runFiles (as ++ rest) = ((runFiles as).1 ++ (runFiles rest).1,
        (runFiles as).2.1 ++ (runFiles rest).2.1, (runFiles rest).2.2)
  | [], _, rest => by simp [runFiles]
  | a :: as', ha, rest => by
    obtain ⟨pr, hpr⟩ := processOne_of_succeeds (ha a (List.mem_cons_self _ _))
    have ih := runFiles_append_ok as' (fun g hg => ha g (List.mem_cons_of_mem a hg))
      rest
    rw [List.cons_append]
    simp only [runFiles, hpr, ih]
    simp [List.append_assoc]

/-! ## Statement-level facts for the claims -/

/-- C1: a file is written back (and reported fixed) exactly when the
transformed content differs from the original; otherwise the original
content stays on disk. -/
theorem claim1_write_iff_changed (c : LC) :
    ((fix_file c).2 = true ↔ fixContent c ≠ c) ∧ (fix_file c).1 = fixContent c := by
  rw [fix_file]
  by_cases h : fixContent c ≠ c
  · rw [if_pos h]
    exact ⟨⟨fun _ => h, fun _ => rfl⟩, rfl⟩
  · rw [if_neg h]
    refine ⟨⟨fun hf => absurd hf (by simp), fun hne => absurd hne h⟩, ?_⟩
    exact (not_ne_iff.mp h).symm

/-- Witness for C1 at a file containing a rule 3 trigger. -/
theorem claim1_witness : (fix_file ("URI.joinPath(a)".data)).2 = true :=
  (claim1_write_iff_changed ("URI.joinPath(a)".data)).1.mpr (by decide)

/-- C2, counterexample: a file with no URI import literal but with a rule 2
trigger is modified and reported as fixed, refuting the claim as stated. -/
theorem claim2_counterexample :
    containsSub uriImportCheck c2bad = false ∧ fixContent c2bad ≠ c2bad ∧
      (fix_file c2bad).2 = true := by
  refine ⟨by decide, by decide, by decide⟩

/-- C2, amended: a file containing no URI import literal, no rule 2 match
and no rule 3 match is left unchanged and not reported as fixed. -/
theorem claim2_amended (c : LC) (h1 : containsSub uriImportCheck c = false)
    (h2 : hasMatch match2 c = false) (h3 : hasMatch match3 c = false) :
    fixContent c = c ∧ fix_file c = (c, false) := by
  have hcond : (containsSub uriImportCheck c && !containsSub pathImportCheck c)
      = false := by
    rw [h1, Bool.false_and]
  have hr : rule1 c = c := by
    rw [rule1, if_neg (by rw [hcond]; exact Bool.false_ne_true)]
  have hfix : fixContent c = c := by
    rw [fixContent, hr]
    show sub3 (sub2 c) = c
    rw [sub2, scan_id_of_no_match h2, sub3, scan_id_of_no_match h3]
  refine ⟨hfix, ?_⟩
  rw [fix_file, if_neg fun hne => hne hfix]

/-- Witness for C2 at a file matching none of the three rules. -/
theorem claim2_witness :
    fixContent ("hello world".data) = "hello world".data ∧
      fix_file ("hello world".data) = ("hello world".data, false) :=
  claim2_amended ("hello world".data) (by decide) (by decide) (by decide)

set_option maxRecDepth 40000 in
/-- C3, counterexample: when the URI import statement occurs twice, rule 1
(replace-all) inserts the path import after each occurrence, so the
path import literal occurs twice, not exactly once, refuting the claim
as stated. -/
theorem claim3_counterexample :
    containsSub uriImportCheck c3bad = true ∧
      containsSub pathImportCheck c3bad = false ∧
      countPos pathImportCheck (rule1 c3bad) = 2 := by
  refine ⟨by decide, by decide, by decide⟩

/-- C3, amended: when the URI import statement (with semicolon) occurs
exactly once and the path import literal does not occur, rule 1 makes the
path import literal occur exactly once, immediately after the URI import
line (the combined two-line block occurs in the output). -/
theorem claim3_amended (c : LC) (h1 : countPos uriImportSemi c = 1)
    (h2 : containsSub pathImportCheck c = false) :
    countPos pathImportCheck (rule1 c) = 1 ∧
      containsSub uriImportInsert (rule1 c) = true := by
  obtain ⟨a, ha, hu⟩ := countPos_eq_one_elim uriSemi_ne_nil h1
  have hc : c = c.take a ++ (uriImportSemi ++ (c.drop a).drop uriImportSemi.length) := by
    conv_lhs => rw [← List.take_append_drop a c]
    rw [isPre_drop ha]
  set A := c.take a with hA
  set B := (c.drop a).drop uriImportSemi.length with hB
  have halen : A.length = a := by
    rw [hA, List.length_take]
    exact min_eq_left (le_of_lt (isPre_drop_of_isPre ha uriSemi_ne_nil))
  have hguard : (containsSub uriImportCheck c && !containsSub pathImportCheck c)
      = true := by
    rw [containsSub_of_occ a (isPre_trans uriChk_pre_semi ha), h2]
    rfl
  have huniq : ∀ j, isPre uriImportSemi ((A ++ (uriImportSemi ++ B)).drop j) = true →
      j = A.length := by
    intro j hj
    rw [← hc] at hj
    rw [halen]
    exact hu j hj
  have hout : rule1 c = A ++ (uriImportInsert ++ B) := by
    rw [rule1, if_pos hguard]
    conv_lhs => rw [hc]
    exact replaceAll_single uriSemi_ne_nil A B huniq
  constructor
  · rw [hout]
    apply countPos_eq_one_intro pathChk_ne_nil (A.length + 34)
    · have heq : (A ++ (uriImportInsert ++ B)).drop (A.length + 34)
          = uriImportInsert.drop 34 ++ B := by
        rw [drop_len_add, List.drop_append_eq_append_drop,
          show ((34 : Nat) - uriImportInsert.length) = 0 by decide, List.drop_zero]
      rw [heq, insRepl_drop34, List.append_assoc]
      exact isPre_self_append _ _
    · intro j hj
      rcases occ_cases hj with ⟨hle, hocc⟩ | ⟨hge, hocc⟩ | ⟨hlt, hgt, hpre1, hpre2⟩
      · exfalso
        have hx : isPre pathImportCheck (c.drop j) = true := by
          rw [hc]
          exact occ_in_left _ (by omega) hocc
        rw [containsSub_false_all h2 j] at hx
        exact Bool.false_ne_true hx
      · rcases occ_cases hocc with ⟨hle2, hocc2⟩ | ⟨hge2, hocc2⟩ |
          ⟨hlt2, hgt2, hpre21, hpre22⟩
        · have h34 := inside_insert_unique (j - A.length)
            (by rw [pathChk_len] at hle2; rw [insRepl_len] at hle2; omega) hocc2
          omega
        · exfalso
          have hx1 : isPre pathImportCheck ((uriImportSemi ++ B).drop
              (uriImportSemi.length + (j - A.length - uriImportInsert.length)))
              = true := occ_in_right uriImportSemi hocc2
          have hx2 : isPre pathImportCheck ((A ++ (uriImportSemi ++ B)).drop
              (A.length + (uriImportSemi.length +
                (j - A.length - uriImportInsert.length)))) = true :=
            occ_in_right A hx1
          rw [← hc] at hx2
          rw [containsSub_false_all h2 _] at hx2
          exact Bool.false_ne_true hx2
        · exfalso
          have hx := straddle_right_none (j - A.length)
            (by rw [insRepl_len] at hlt2; exact hlt2)
            (by rw [insRepl_len] at hgt2; rw [pathChk_len] at hgt2; omega)
          rw [hx] at hpre21
          exact Bool.false_ne_true hpre21
      · exfalso
        rw [pathChk_len] at hgt
        have hlong : isPre (pathImportCheck.drop (A.length - j)) uriImportInsert
            = true := by
          apply isPre_of_long hpre2
          rw [List.length_drop, pathChk_len, insRepl_len]
          omega
        rw [straddle_left_none (A.length - j) (by omega) (by omega)] at hlong
        exact Bool.false_ne_true hlong
  · rw [hout]
    apply containsSub_of_occ A.length
    rw [List.drop_left]
    exact isPre_self_append _ _

/-- Witness for C3 at a file that is exactly the URI import line. -/
theorem claim3_witness :
    countPos pathImportCheck (rule1 uriImportSemi) = 1 ∧
      containsSub uriImportInsert (rule1 uriImportSemi) = true :=
  claim3_amended uriImportSemi (by decide) (by decide)

/-- C4, counterexample: `path.join(URI.joinPath(a), b)` triggers only
rule 3 on the first run, whose output `path.join(URI.file("FIXME"), b)`
is a rule 2 trigger, so the second run modifies the file again and
reports it as fixed — exactly the case the claim singles out as having
to be stable. -/
theorem claim4_counterexample :
    hasMatch match2 (rule1 c4bad) = false ∧
      fixContent c4bad = "path.join(URI.file(\"FIXME\"), b)".data ∧
      fixContent (fixContent c4bad) ≠ fixContent c4bad ∧
      (fix_file (fixContent c4bad)).2 = true := by
  refine ⟨by decide, by decide, by decide, by decide⟩

/-- C4, amended: a second run is a no-op provided the first-run output
does not re-trigger rule 1 and contains no rule 2 match; rule 3 never
re-triggers on its own output (it is idempotent), but the FIXME
placeholder case excluded here does re-trigger rule 2. -/
theorem claim4_amended (c : LC) (h1 : rule1 (fixContent c) = fixContent c)
    (h2 : hasMatch match2 (fixContent c) = false) :
    fixContent (fixContent c) = fixContent c ∧
      fix_file (fixContent c) = (fixContent c, false) := by
  have hfix : fixContent (fixContent c) = fixContent c := by
    rw [fixContent, h1]
    show sub3 (sub2 (fixContent c)) = fixContent c
    rw [sub2, scan_id_of_no_match h2]
    show sub3 (fixContent c) = fixContent c
    rw [fixContent]
    exact sub3_idem _
  exact ⟨hfix, by rw [fix_file, if_neg fun hne => hne hfix]⟩

/-- Witness for C4 at a file that is a plain `URI.joinPath` call. -/
theorem claim4_witness :
    fixContent (fixContent ("URI.joinPath(a, b)".data))
        = fixContent ("URI.joinPath(a, b)".data) ∧
      fix_file (fixContent ("URI.joinPath(a, b)".data))
        = (fixContent ("URI.joinPath(a, b)".data), false) :=
  claim4_amended ("URI.joinPath(a, b)".data) (by decide) (by decide)

/-- C5: at a `path.join(URI.parse(x),` or `path.join(URI.file(x),` fragment
with `x` nonempty and free of closing parentheses, rule 2 rewrites the
fragment to `path.join(URI.parse(x).fsPath,` (resp. `URI.file`) and
continues scanning after it, so every such occurrence is rewritten. -/
theorem claim5_rule2_rewrite (x rest : LC) (hne : x ≠ []) (hx : ')' ∉ x) :
    sub2 (pjParseTrig ++ (x ++ ')' :: ',' :: rest))
      = (pjParseTrig ++ x ++ fsPathClose) ++ sub2 rest ∧
    sub2 (pjFileTrig ++ (x ++ ')' :: ',' :: rest))
      = (pjFileTrig ++ x ++ fsPathClose) ++ sub2 rest := by
  have hnp : ∀ ch ∈ x, nonParen ch = true :=
    fun ch hch => nonParen_eq_true.mpr fun he => hx (he ▸ hch)
  exact ⟨sub2_step (match2_parse_frag x rest hne hnp),
    sub2_step (match2_file_frag x rest hne hnp)⟩

/-- Witness for C5 at `x = p` and empty continuation. -/
theorem claim5_witness :
    sub2 (pjParseTrig ++ (['p'] ++ ')' :: ',' :: []))
      = (pjParseTrig ++ ['p'] ++ fsPathClose) ++ sub2 [] ∧
    sub2 (pjFileTrig ++ (['p'] ++ ')' :: ',' :: []))
      = (pjFileTrig ++ ['p'] ++ fsPathClose) ++ sub2 [] :=
  claim5_rule2_rewrite ['p'] [] (by decide) (by decide)

/-- C6: at a `URI.joinPath(args)` fragment with `args` nonempty and free of
closing parentheses, rule 3 replaces the entire call including all of its
arguments by `URI.file("FIXME")` and continues scanning after it, so every
such occurrence is replaced. -/
theorem claim6_rule3_replaces (args rest : LC) (hne : args ≠ []) (hx : ')' ∉ args) :
    sub3 (joinPathTrig ++ (args ++ ')' :: rest)) = fixmeRepl ++ sub3 rest :=
  sub3_step (match3_intro args rest hne
    fun _ hch => nonParen_eq_true.mpr fun he => hx (he ▸ hch))

/-- Witness for C6 at `args = a, b` and empty continuation. -/
theorem claim6_witness :
    sub3 (joinPathTrig ++ ("a, b".data ++ ')' :: [])) = fixmeRepl ++ sub3 [] :=
  claim6_rule3_replaces ("a, b".data) [] (by decide) (by decide)

/-- C7: rule 2 does not match a `path.join(URI.parse(u(v)),` fragment whose
first argument contains a nested closing parenthesis (likewise for
`URI.file`): the matcher rejects the occurrence instead of rewriting it. -/
theorem claim7_nested_unmatched (u v rest : LC) (hu : ')' ∉ u) (hv : ')' ∉ v) :
    match2 (pjParseTrig ++ ((u ++ '(' :: v) ++ ')' :: ')' :: ',' :: rest)) = none ∧
    match2 (pjFileTrig ++ ((u ++ '(' :: v) ++ ')' :: ')' :: ',' :: rest)) = none := by
  have hnp := mem_nested_nonParen hu hv
  constructor
  · rw [match2,
      matchArm_none_bad_tail pjParseTrig (u ++ '(' :: v) (',' :: rest) hnp ')'
        (by decide),
      matchArm_none_not_pre (isPre_file_on_parse _)]
  · rw [match2,
      matchArm_none_not_pre (isPre_parse_on_file _),
      matchArm_none_bad_tail pjFileTrig (u ++ '(' :: v) (',' :: rest) hnp ')'
        (by decide)]

/-- Witness for C7 at the fragment `path.join(URI.parse(f(x)),`. -/
theorem claim7_witness :
    match2 (pjParseTrig ++ ((['f'] ++ '(' :: ['x']) ++ ')' :: ')' :: ',' :: [])) = none ∧
    match2 (pjFileTrig ++ ((['f'] ++ '(' :: ['x']) ++ ')' :: ')' :: ',' :: [])) = none :=
  claim7_nested_unmatched ['f'] ['x'] [] (by decide) (by decide)

/-- C8: when one file in the batch fails (read failure, or write failure on
a changed file), the run stops there: earlier files keep their processed
results and printed lines, the failing file and every later file keep
their original contents, no further line is printed, the loop does not
complete, and `Done!` is never printed. -/
theorem claim8_failure_aborts (as bs : List FileSpec) (f : FileSpec)
    (ha : ∀ g ∈ as, succeeds g = true) (hf : succeeds f = false) :
    runFiles (as ++ f :: bs)
        = ((runFiles as).1 ++ origEntry f :: bs.map origEntry,
           (runFiles as).2.1, false) ∧
      consoleOutput (as ++ f :: bs) = (runFiles as).2.1 := by
  have hff : runFiles (f :: bs) = (origEntry f :: bs.map origEntry, [], false) := by
    simp [runFiles, processOne_of_fails hf]
  have h1 := runFiles_append_ok as ha (f :: bs)
  rw [hff] at h1
  simp only [List.append_nil] at h1
  refine ⟨h1, ?_⟩
  rw [consoleOutput, h1]
  simp

/-- Witness for C8: one clean file, then a file whose read fails, then an
unreached file. -/
theorem claim8_witness :
    runFiles ([w8a] ++ w8b :: [w8c])
        = ((runFiles [w8a]).1 ++ origEntry w8b :: [w8c].map origEntry,
           (runFiles [w8a]).2.1, false) ∧
      consoleOutput ([w8a] ++ w8b :: [w8c]) = (runFiles [w8a]).2.1 :=
  claim8_failure_aborts [w8a] [w8c] w8b (by decide) (by decide)

/-- C9: end-to-end, a single file holding the URI import line and
`foo(path.join(URI.file(p), q));` is rewritten to hold the inserted
path import on the following line and `path.join(URI.file(p).fsPath, q)`;
the
console prints `Fixed a.ts` and then `Done!`. -/
theorem claim9_end_to_end :
    runFiles [c9file] = ([(c9path, c9fixed)], ["Fixed a.ts".data], true) ∧
      consoleOutput [c9file] = ["Fixed a.ts".data, "Done!".data] := by
  refine ⟨by decide, by decide⟩

/-- C10: a file containing the URI import literal without its trailing
semicolon (and without the path import literal) passes the rule 1 presence
check, but the replacement finds no occurrence of the semicolon form and
rule 1 leaves the content unchanged. -/
theorem claim10_semicolon_gap (c : LC) (h1 : containsSub uriImportCheck c = true)
    (h2 : containsSub uriImportSemi c = false)
    (h3 : containsSub pathImportCheck c = false) : rule1 c = c := by
  have hcond : (containsSub uriImportCheck c && !containsSub pathImportCheck c)
      = true := by
    rw [h1, h3]
    rfl
  rw [rule1, if_pos hcond]
  exact replaceAll_id_of_not_contains h2

/-- Witness for C10 at the URI import line with no semicolon. -/
theorem claim10_witness : rule1 uriImportCheck = uriImportCheck :=
  claim10_semicolon_gap uriImportCheck (by decide) (by decide) (by decide)

end FixUriImports
